import Mathlib

/-
  Verification of the fragmented live-capture engine of ytarchive
  (a shallow embedding of src/ytarchive.py, version 0.2.1).

  Modelling conventions:
  * Python byte strings are `List Nat` (each element a byte value).
  * Python text strings are `List Char`.
  * Python `True` / `False` / `None` return values are `some true` /
    `some false` / `none` in `Option Bool`.
  * Fallible parsing (`int(b"".hex(), 16)` raising, `bytes.decode()`
    raising on invalid UTF-8) is explicit: `readAlen` returns an
    `Option`, and a separate UTF-8 validity check guards the decode.
-/

set_option maxRecDepth 4000

namespace Ytarchive

/-! ## Constants (ytarchive.py lines 37-65) -/

/-- RECHECK_TIME constant, seconds (line 48). -/
def RECHECK_TIME : Int := 15

/-- FRAG_MAX_TRIES constant (line 49). -/
def FRAG_MAX_TRIES : Nat := 10

/-- BUF_SIZE constant, bytes per buffered read (line 51). -/
def BUF_SIZE : Nat := 8192

/-! ## ISO-BMFF atom scanning (get_atoms, lines 712-732)

`int(data[ofs:ofs+4].hex(), 16)` parses the 4-byte big-endian box size;
it raises (breaking the loop) exactly when the slice is empty, and for a
1-3 byte slice it yields the big-endian value of those bytes. -/

/-- Big-endian value of a byte slice, as computed by `int(bs.hex(), 16)`. -/
def beNat (bs : List Nat) : Nat := bs.foldl (fun a b => a * 256 + b) 0

/-- Box-size read at offset `ofs`: `int(data[ofs:ofs+4].hex(), 16)`.
`none` models the `ValueError` of `int("", 16)` on an empty slice. -/
def readAlen (data : List Nat) (ofs : Nat) : Option Nat :=
  let s := (data.drop ofs).take 4
  if s = [] then none else some (beNat s)

/-- Whether a byte is a UTF-8 continuation byte (0x80-0xBF). -/
def isCont (b : Nat) : Bool := decide (128 ≤ b ∧ b ≤ 191)

/-- Continuation-byte demand of a UTF-8 lead byte (RFC 3629 table: no
overlongs, no surrogates, max U+10FFFF): `some (k, lo, hi)` means `k`
continuation bytes follow, the first in `[lo, hi]` and the remaining ones
in `[128, 191]`; `none` means the byte can never start a character. -/
def utf8Need (b : Nat) : Option (Nat × Nat × Nat) :=
  if b < 128 then some (0, 0, 0)
  else if 194 ≤ b ∧ b ≤ 223 then some (1, 128, 191)
  else if b = 224 then some (2, 160, 191)
  else if (225 ≤ b ∧ b ≤ 236) ∨ (238 ≤ b ∧ b ≤ 239) then some (2, 128, 191)
  else if b = 237 then some (2, 128, 159)
  else if b = 240 then some (3, 144, 191)
  else if 241 ≤ b ∧ b ≤ 243 then some (3, 128, 191)
  else if b = 244 then some (3, 128, 143)
  else none

/-- Fuel-indexed UTF-8 validity scan; `fuel ≥ l.length` always reaches
the real answer, since each step consumes at least one byte. -/
def validUtf8Go : Nat → List Nat → Bool
  | _, [] => true
  | 0, _ :: _ => false
  | fuel + 1, b :: rest =>
    match utf8Need b with
    | none => false
    | some (k, lo, hi) =>
      decide (k ≤ rest.length) &&
        (match rest.take k with
         | [] => true
         | c :: cs => decide (lo ≤ c ∧ c ≤ hi) && cs.all isCont) &&
        validUtf8Go fuel (rest.drop k)

/-- Whether a byte sequence is valid UTF-8, i.e. `bytes.decode()`
succeeds: each lead byte is followed by the continuation bytes its range
demands. -/
def validUtf8 (l : List Nat) : Bool := validUtf8Go l.length l

/-- One atom-table entry: decoded name with `(ofs, len)`. The table is an
association list modelling the Python `dict` (`atoms[aname] = {...}`). -/
abbrev AtomEntry := List Nat × Nat × Nat

/-- Python `dict` assignment `m[k] = v`: replace in place when the key is
present, append otherwise. -/
def dictInsert (k : List Nat) (v : Nat × Nat) (m : List AtomEntry) : List AtomEntry :=
  if m.any (fun p => decide (p.1 = k)) then
    m.map (fun p => if p.1 = k then (k, v) else p)
  else m ++ [(k, v)]

/-- Python `dict` lookup `m[k]` / membership `k in m`. -/
def dictLookup (k : List Nat) (m : List AtomEntry) : Option (Nat × Nat) :=
  (m.find? (fun p => decide (p.1 = k))).map Prod.snd

/-- Loop body of `get_atoms` (lines 716-730).  The Python loop does not
terminate when a parsed box has size 0 and `ofs+8 < len(data)` (it then
re-reads the same box forever); on every input where the Python loop
terminates, each non-final iteration advances `ofs` by at least 1, so
`data.length + 1` fuel reproduces the Python result exactly. -/
def getAtomsGo (data : List Nat) : Nat → Nat → List AtomEntry → List AtomEntry
  | 0, _, atoms => atoms
  | fuel + 1, ofs, atoms =>
    match readAlen data ofs with
    | none => atoms
    | some alen =>
      if alen > data.length then atoms
      else
        let aname := (data.drop (ofs + 4)).take 4
        if validUtf8 aname then
          let atoms1 := dictInsert aname (ofs, alen) atoms
          if ofs + alen + 8 ≥ data.length then atoms1
          else getAtomsGo data fuel (ofs + alen) atoms1
        else atoms

/-- get_atoms (lines 712-732): name of each top-level atom with its offset
and length, scanning from offset 0. -/
def get_atoms (data : List Nat) : List AtomEntry :=
  getAtomsGo data (data.length + 1) 0 []

/-- Byte string of the atom name "sidx". -/
def sidxKey : List Nat := [115, 105, 100, 120]

/-- remove_sidx (lines 735-745): splice out the `sidx` atom recorded by
`get_atoms`, or pass the data through unchanged when there is none. -/
def remove_sidx (data : List Nat) : List Nat :=
  let atoms := get_atoms data
  match dictLookup sidxKey atoms with
  | none => data
  | some sidx => data.take sidx.1 ++ data.drop (sidx.1 + sidx.2)

/-- Parse trace of `get_atoms`: the successive `(aname, ofs, alen)`
iterations of the same loop, in order, with duplicates kept. -/
def getAtomsTraceGo (data : List Nat) : Nat → Nat → List AtomEntry
  | 0, _ => []
  | fuel + 1, ofs =>
    match readAlen data ofs with
    | none => []
    | some alen =>
      if alen > data.length then []
      else
        let aname := (data.drop (ofs + 4)).take 4
        if validUtf8 aname then
          if ofs + alen + 8 ≥ data.length then [(aname, ofs, alen)]
          else (aname, ofs, alen) :: getAtomsTraceGo data fuel (ofs + alen)
        else []

/-- Parse trace of `get_atoms` from offset 0 with the standard fuel. -/
def getAtomsTrace (data : List Nat) : List AtomEntry :=
  getAtomsTraceGo data (data.length + 1) 0

/-- Offsets and lengths of the `sidx` entries of the parse trace, in parse
order. -/
def sidxEntries (data : List Nat) : List (Nat × Nat) :=
  ((getAtomsTrace data).filter (fun e => decide (e.1 = sidxKey))).map Prod.snd

/-! ## Specification-side view of ISO-BMFF data (spec section 6)

The spec describes the input of `remove_sidx` as "a sequence of ISO-BMFF
top-level boxes (`[u32 size][4-char name][payload…]`, big-endian size
including the 8-byte header)".  These definitions follow that wording and
are used to state the box-sequence claims C8 and C9 against the code. -/

/-- A top-level ISO-BMFF box as the spec describes it: a 4-byte name and a
payload; the serialized size field is 8 plus the payload length. -/
structure IsoBox where
  name : List Nat
  payload : List Nat
deriving DecidableEq

/-- Big-endian 4-byte encoding of a u32. -/
def natToBeBytes4 (n : Nat) : List Nat :=
  [n / 16777216 % 256, n / 65536 % 256, n / 256 % 256, n % 256]

/-- Serialization of one box: `[u32 size][4-char name][payload]` with the
size including the 8-byte header. -/
def serializeBox (b : IsoBox) : List Nat :=
  natToBeBytes4 (8 + b.payload.length) ++ b.name ++ b.payload

/-- Serialization of a top-level box sequence. -/
def serializeBoxes : List IsoBox → List Nat
  | [] => []
  | b :: bs => serializeBox b ++ serializeBoxes bs

/-- Well-formedness of a box: a 4-byte ASCII name (so `bytes.decode()`
succeeds) and a size field that fits in a u32. -/
def wfBox (b : IsoBox) : Prop :=
  b.name.length = 4 ∧ (∀ c ∈ b.name, c < 128) ∧ 8 + b.payload.length < 4294967296

instance (b : IsoBox) : Decidable (wfBox b) := by
  unfold wfBox
  exact inferInstance

/-- Byte string of the atom name "ftyp". -/
def ftypKey : List Nat := [102, 116, 121, 112]

/-- Two adjacent minimal `sidx` boxes (8 bytes each).  `get_atoms` records
only the first (the scan stops once fewer than 9 bytes remain past the
current offset), so one `remove_sidx` pass leaves the second box behind. -/
def dataTwoSidx : List Nat :=
  [0, 0, 0, 8, 115, 105, 100, 120, 0, 0, 0, 8, 115, 105, 100, 120]

/-- A single `ftyp` box: no `sidx` anywhere. -/
def dataFtyp : List Nat := [0, 0, 0, 8, 102, 116, 121, 112]

/-- A `sidx` box with a 1-byte payload. -/
def sidxBoxA : IsoBox := { name := sidxKey, payload := [170] }

/-- A `sidx` box with an empty payload. -/
def sidxBoxB : IsoBox := { name := sidxKey, payload := [] }

/-- A `free` box with a 1-byte payload. -/
def freeBox : IsoBox := { name := [102, 114, 101, 101], payload := [170] }

/-- A `ftyp` box with a 3-byte payload. -/
def ftypBoxW : IsoBox := { name := ftypKey, payload := [0, 1, 2] }

/-! ## Python string primitives

Python text strings are `List Char`.  Only the ASCII behaviour of
`str.lower()` matters here (URLs and quality labels are ASCII). -/

/-- Whitespace recognized by `str.strip()` (ASCII subset). -/
def pyIsSpace (c : Char) : Bool :=
  decide (c = ' ' ∨ c = '\t' ∨ c = '\n' ∨ c = '\r' ∨ c = Char.ofNat 11 ∨ c = Char.ofNat 12)

/-- ASCII `str.lower()` on one character. -/
def pyLowerChar (c : Char) : Char :=
  if 'A' ≤ c ∧ c ≤ 'Z' then Char.ofNat (c.toNat + 32) else c

/-- Python `s.lower()`. -/
def pyLower (s : List Char) : List Char := s.map pyLowerChar

/-- Python `s.strip()`: drop leading and trailing whitespace. -/
def pyStrip (s : List Char) : List Char :=
  ((s.dropWhile pyIsSpace).reverse.dropWhile pyIsSpace).reverse

/-- Python `s.split("/")`: split at every slash, keeping empty pieces;
the empty string yields `[""]`. -/
def pySplitSlash : List Char → List (List Char)
  | [] => [[]]
  | c :: rest =>
    match pySplitSlash rest with
    | [] => [[]]
    | g :: gs => if c = '/' then [] :: g :: gs else (c :: g) :: gs

/-- Whether `pat` is a prefix of `hay` (both as character lists). -/
def hasPrefixCL : List Char → List Char → Bool
  | _, [] => true
  | [], _ :: _ => false
  | c :: cs, p :: ps => decide (c = p) && hasPrefixCL cs ps

/-- Python `hay.find(pat)`: index of the leftmost occurrence, `-1` if none. -/
def pyFind (hay pat : List Char) : Int :=
  if hasPrefixCL hay pat then 0
  else
    match hay with
    | [] => -1
    | _ :: rest =>
      let r := pyFind rest pat
      if r < 0 then -1 else r + 1

/-- The marker string "noclen". -/
def noclenStr : List Char := ['n', 'o', 'c', 'l', 'e', 'n']

/-! ## is_fragmented (ytarchive.py lines 511-515) -/

/-- is_fragmented: `url.lower().find("noclen") >= 0`. -/
def is_fragmented (url : List Char) : Bool :=
  decide (0 ≤ pyFind (pyLower url) noclenStr)

/-- Everything after the first question mark (helper for the spec-side
query component). -/
def afterFirstQM : List Char → List Char
  | [] => []
  | c :: rest => if c = '?' then rest else afterFirstQM rest

/-- Modelled from the spec wording of C5: the query component of a URL is
what stands between the first question mark and the following hash. -/
def specQuery (u : List Char) : List Char :=
  (afterFirstQM u).takeWhile (fun c => decide (¬ c = '#'))

/-- URL whose path contains "noclen" while its query is only "x=1". -/
def urlC5 : List Char :=
  ['h', 't', 't', 'p', 's', ':', '/', '/', 'a', '/', 'n', 'o', 'c', 'l', 'e', 'n',
   '?', 'x', '=', '1']

/-! ## parse_quality_list (ytarchive.py lines 299-312) -/

/-- The literal "best". -/
def bestStr : List Char := ['b', 'e', 's', 't']

/-- Keys of VIDEO_LABEL_ITAGS (lines 55-65), the known quality-label
table, in order; callers pass `list(VIDEO_LABEL_ITAGS.keys())`. -/
def knownLabels : List (List Char) :=
  [['a', 'u', 'd', 'i', 'o', '_', 'o', 'n', 'l', 'y'],
   ['1', '4', '4', 'p'],
   ['2', '4', '0', 'p'],
   ['3', '6', '0', 'p'],
   ['4', '8', '0', 'p'],
   ['7', '2', '0', 'p'],
   ['7', '2', '0', 'p', '6', '0'],
   ['1', '0', '8', '0', 'p'],
   ['1', '0', '8', '0', 'p', '6', '0']]

/-- parse_quality_list (lines 299-312): lowercase and strip the whole
input, split it on slashes, and keep (unstripped) every piece whose
stripped form is a known format or "best". -/
def parse_quality_list (formats : List (List Char)) (quality : List Char) : List (List Char) :=
  let quality1 := pyStrip (pyLower quality)
  let selected_quarities := pySplitSlash quality1
  selected_quarities.foldl
    (fun selected_qualities q =>
      let stripped := pyStrip q
      if stripped ∈ formats ∨ stripped = bestStr then selected_qualities ++ [q]
      else selected_qualities)
    []

/-- Slash-join of a list of strings, as in the claim C7 wording. -/
def joinSlash : List (List Char) → List Char
  | [] => []
  | [q] => q
  | q :: qs => q ++ '/' :: joinSlash qs

/-- The claim-side predicate of C7: the element appears in the known
label table or equals "best". -/
def claimQualityPred (q : List Char) : Bool :=
  decide (q ∈ knownLabels ∨ q = bestStr)

/-- Concrete quality list for the C7 witness. -/
def qsW : List (List Char) :=
  [['7', '2', '0', 'p'], ['z', 'z'], ['b', 'e', 's', 't']]

/-! ## download_frags, HTTP 404 branch (ytarchive.py lines 869-876) -/

/-- Outcome of the 404 branch of the fragment worker. -/
inductive Frag404Result where
  | exitQuietly : Frag404Result
  | retryOnce : Frag404Result
deriving DecidableEq

/-- Decision taken by `download_frags` when a fragment GET returns HTTP
404 (lines 869-880): `downloading = False; break` (quiet exit) exactly
inside the `max_seq > -1` and `not is_live and seq >= max_seq - 2`
branch; every other fall-through reaches `tries += 1` (one retry). -/
def download_frags_on_404 (max_seq : Int) (is_live : Bool) (seq : Int) : Frag404Result :=
  if max_seq > -1 then
    if is_live = false ∧ seq ≥ max_seq - 2 then Frag404Result.exitQuietly
    else Frag404Result.retryOnce
  else Frag404Result.retryOnce

/-! ## Thread-count setup (ytarchive.py lines 1546-1551 and 954-966) -/

/-- Outcome of option parsing in `main`. -/
inductive SetupResult where
  | exit1 : SetupResult
  | proceed : Nat → SetupResult
deriving DecidableEq

/-- Handling of `--threads a` (lines 1546-1551):
`info.thread_count = abs(int(a))`, with `sys.exit(1)` only when `int(a)`
raises; `none` models an unparseable argument. -/
def main_threads_opt : Option Int → SetupResult
  | none => SetupResult.exit1
  | some n => SetupResult.proceed n.natAbs

/-- Worker-spawn loop of `download_stream` (lines 954-966):
`while active_threads < thread_count: spawn; active_threads += 1`.
Returns the final `active_threads`. -/
def download_stream_spawn (active_threads thread_count : Nat) : Nat :=
  if active_threads < thread_count then
    download_stream_spawn (active_threads + 1) thread_count
  else active_threads
termination_by thread_count - active_threads

/-! ## download_stream write phase (ytarchive.py lines 1029-1066)

A received fragment is its sequence number plus the bytes of its temp
file.  The output file is the ordered list of `(seq, bytes)` writes.  The
`tries` write-failure budget only changes when a file-system write raises
(lines 1067-1074); writes always succeed in this pure model, so `tries`
stays at 10 and the loop guard `i < len(data) and tries > 0` reduces to
`i < len(data)`. -/

/-- A fragment handed over by a worker (class Fragment, lines 107-111,
with the temp file contents in place of its name). -/
structure Fragment where
  seq : Nat
  payload : List Nat
deriving DecidableEq

/-- Bytes that reach the output file for one fragment: the first
BUF_SIZE-byte read goes through `remove_sidx`, the rest is copied
unchanged (lines 1039-1051). -/
def write_frag_bytes (d : Fragment) : List Nat :=
  remove_sidx (d.payload.take BUF_SIZE) ++ d.payload.drop BUF_SIZE

/-- Write loop of the assembler (lines 1029-1066): scan `data` from index
`i`; skip fragments whose seq is not `cur_frag`; on a match, append its
bytes to the file, delete it from `data`, advance `cur_frag` and restart
the scan at 0.  Returns the remaining fragments, the final `cur_frag` and
the file contents. -/
def download_stream_write (data : List Fragment) (i cur_frag : Nat)
    (file : List (Nat × List Nat)) : List Fragment × Nat × List (Nat × List Nat) :=
  if h : i < data.length then
    let d := data[i]
    if ¬ d.seq = cur_frag then
      download_stream_write data (i + 1) cur_frag file
    else
      download_stream_write (data.eraseIdx i) 0 (cur_frag + 1)
        (file ++ [(d.seq, write_frag_bytes d)])
  else (data, cur_frag, file)
termination_by (data.length, data.length - i)
decreasing_by
  · apply Prod.Lex.right
    omega
  · apply Prod.Lex.left
    rw [List.length_eraseIdx_of_lt h]
    omega

/-- Concrete out-of-order fragment batch for the C1 witness: seqs 1, 0, 3
pending with the write cursor at 0 (fragment 2 still missing). -/
def dataFragsW : List Fragment :=
  [{ seq := 1, payload := [2, 2] }, { seq := 0, payload := [1] },
   { seq := 3, payload := [9] }]

/-! ## get_video_info (ytarchive.py lines 563-581)

Python `True` / `False` / `None` results are `some true` / `some false` /
`none`.  Everything from line 583 on (the network probe, quality
resolution and the rebinding of the track URL templates) is abstracted as
a function `probe` from the current state to a result and a new state;
the theorems below hold for every `probe`, which is exactly the statement
that the early returns touch neither the network nor the state. -/

/-- Mutable fields of DownloadInfo (lines 146-179) reachable from
`get_video_info`. -/
structure DownloadInfo where
  gvideo_ddl : Bool
  stopping : Bool
  is_unavailable : Bool
  in_progress : Bool
  is_live : Bool
  last_updated : Int
  audio_download_url : List Char
  video_download_url : List Char
  quality : Int
  target_duration : Int
  expires_in_seconds : Int
  dash_manifest_url : List Char
deriving DecidableEq

/-- get_video_info (lines 563-581): the four early returns, in source
order, before the probe path (lines 583-708, abstracted as `probe`). -/
def get_video_info (probe : DownloadInfo → Option Bool × DownloadInfo)
    (now : Int) (info : DownloadInfo) : Option Bool × DownloadInfo :=
  if info.gvideo_ddl then (some false, info)
  else if info.stopping then (some false, info)
  else if info.is_unavailable then (none, info)
  else if now - info.last_updated < RECHECK_TIME then (some false, info)
  else probe info

/-- A probe that would report success and touch nothing, for the concrete
counterexample and witness states. -/
def probeConst : DownloadInfo → Option Bool × DownloadInfo := fun info => (some true, info)

/-- Concrete state whose stream is marked unavailable, refreshed 5
seconds ago. -/
def infoUnavail : DownloadInfo :=
  { gvideo_ddl := false, stopping := false, is_unavailable := true, in_progress := true,
    is_live := false, last_updated := 0, audio_download_url := [], video_download_url := [],
    quality := -1, target_duration := 5, expires_in_seconds := 21540, dash_manifest_url := [] }

/-- Concrete state with the stopping flag raised. -/
def infoStopping : DownloadInfo :=
  { gvideo_ddl := false, stopping := true, is_unavailable := false, in_progress := true,
    is_live := true, last_updated := 100, audio_download_url := ['a'],
    video_download_url := ['v'], quality := 299, target_duration := 5,
    expires_in_seconds := 21540, dash_manifest_url := [] }

/-! ## Dictionary lemmas -/

/-- Looking up the key just assigned yields the assigned value. -/
theorem dictLookup_dictInsert_self (k : List Nat) (v : Nat × Nat) (m : List AtomEntry) :
    dictLookup k (dictInsert k v m) = some v := by
  unfold dictInsert dictLookup
  by_cases ha : m.any (fun p => decide (p.1 = k)) = true
  · rw [if_pos ha]
    induction m with
    | nil => simp at ha
    | cons q m ih =>
      by_cases hq : q.1 = k
      · simp [hq]
      · rw [List.any_cons] at ha
        simp only [hq, decide_eq_true_eq, Bool.false_or] at ha
        have ha2 : m.any (fun p => decide (p.1 = k)) = true := by
          cases hd : decide (q.1 = k) with
          | false => simpa [hd] using ha
          | true => exact absurd (of_decide_eq_true hd) hq
        simpa [hq] using ih ha2
  · rw [if_neg ha]
    induction m with
    | nil => simp
    | cons q m ih =>
      rw [List.any_cons] at ha
      simp only [Bool.or_eq_true, not_or] at ha
      have hq : ¬ q.1 = k := by simpa using ha.1
      simpa [hq] using ih (by simpa using ha.2)

/-- Assignment to one key leaves lookups of any other key unchanged. -/
theorem dictLookup_dictInsert_ne (k j : List Nat) (v : Nat × Nat) (m : List AtomEntry)
    (hkj : k ≠ j) : dictLookup j (dictInsert k v m) = dictLookup j m := by
  unfold dictInsert dictLookup
  by_cases ha : m.any (fun p => decide (p.1 = k)) = true
  · rw [if_pos ha]
    clear ha
    induction m with
    | nil => simp
    | cons q m ih =>
      rw [List.map_cons]
      by_cases hq : q.1 = k
      · have hqj : ¬ q.1 = j := by rw [hq]; exact hkj
        rw [if_pos hq]
        rw [List.find?_cons_of_neg _ (by simpa using hkj),
          List.find?_cons_of_neg _ (by simpa using hqj)]
        exact ih
      · rw [if_neg hq]
        by_cases hj : q.1 = j
        · rw [List.find?_cons_of_pos _ (by simpa using hj),
            List.find?_cons_of_pos _ (by simpa using hj)]
        · rw [List.find?_cons_of_neg _ (by simpa using hj),
            List.find?_cons_of_neg _ (by simpa using hj)]
          exact ih
  · rw [if_neg ha]
    clear ha
    induction m with
    | nil => simp [hkj]
    | cons q m ih =>
      rw [List.cons_append]
      by_cases hj : q.1 = j
      · rw [List.find?_cons_of_pos _ (by simpa using hj),
          List.find?_cons_of_pos _ (by simpa using hj)]
      · rw [List.find?_cons_of_neg _ (by simpa using hj),
          List.find?_cons_of_neg _ (by simpa using hj)]
        exact ih

/-- Lookup after folding a list of assignments: the last assignment to the
key wins; when the key was never assigned, the initial table answers. -/
theorem dictLookup_foldl (k : List Nat) (es : List AtomEntry) :
    ∀ m, dictLookup k (es.foldl (fun d e => dictInsert e.1 e.2 d) m) =
      match (es.filter (fun e => decide (e.1 = k))).getLast? with
      | some e => some e.2
      | none => dictLookup k m := by
  induction es with
  | nil => intro m; rfl
  | cons e es ih =>
    intro m
    rw [List.foldl_cons, ih (dictInsert e.1 e.2 m)]
    by_cases he : e.1 = k
    · cases hl : (es.filter (fun e => decide (e.1 = k))).getLast? with
      | some x => simp [he, List.getLast?_cons, hl]
      | none =>
        have hnil : es.filter (fun e => decide (e.1 = k)) = [] :=
          List.getLast?_eq_none_iff.mp hl
        simp [he, hnil, hl, he ▸ dictLookup_dictInsert_self e.1 e.2 m]
    · rw [List.filter_cons_of_neg (by simpa using he)]
      cases hl : (es.filter (fun e => decide (e.1 = k))).getLast? with
      | some x => simp [hl]
      | none => simp [hl, dictLookup_dictInsert_ne e.1 k e.2 m he]

/-- The dictionary built by `getAtomsGo` is the fold of the parse trace. -/
theorem getAtomsGo_eq_foldl (data : List Nat) :
    ∀ fuel ofs m, getAtomsGo data fuel ofs m =
      (getAtomsTraceGo data fuel ofs).foldl (fun d e => dictInsert e.1 e.2 d) m := by
  intro fuel
  induction fuel with
  | zero => intro ofs m; rfl
  | succ fuel ih =>
    intro ofs m
    rw [getAtomsGo, getAtomsTraceGo]
    cases readAlen data ofs with
    | none => rfl
    | some alen =>
      by_cases hbig : alen > data.length
      · simp [hbig]
      · by_cases hv : validUtf8 ((data.drop (ofs + 4)).take 4) = true
        · by_cases hend : ofs + alen + 8 ≥ data.length
          · simp [hbig, hv, hend]
          · simp [hbig, hv, hend, ih]
        · simp [hbig, hv]

/-- Lookup in the atom table of `get_atoms`: the last trace entry with the
requested name wins; absent names answer `none`. -/
theorem dictLookup_get_atoms (data : List Nat) (k : List Nat) :
    dictLookup k (get_atoms data) =
      match ((getAtomsTrace data).filter (fun e => decide (e.1 = k))).getLast? with
      | some e => some e.2
      | none => none := by
  rw [get_atoms, getAtomsGo_eq_foldl, dictLookup_foldl]
  rfl

/-- Names absent from the parse trace are absent from the atom table. -/
theorem dictLookup_get_atoms_none (data : List Nat) (k : List Nat)
    (h : ∀ e ∈ getAtomsTrace data, e.1 ≠ k) :
    dictLookup k (get_atoms data) = none := by
  rw [dictLookup_get_atoms]
  have hnil : (getAtomsTrace data).filter (fun e => decide (e.1 = k)) = [] :=
    List.filter_eq_nil_iff.mpr (by intro e he; simpa using h e he)
  rw [hnil]
  rfl

/-! ## C2: idempotence of remove_sidx -/

/-- C2 counterexample: `remove_sidx` is not idempotent.  On two adjacent
minimal `sidx` boxes, the first pass removes the leading box and returns
the remaining `sidx` box; a second pass removes that one as well. -/
theorem remove_sidx_not_idempotent :
    remove_sidx (remove_sidx dataTwoSidx) ≠ remove_sidx dataTwoSidx := by decide

/-- C2 (amended): `remove_sidx` is idempotent on every input whose
`remove_sidx` image has no `sidx` atom left in its `get_atoms` table — one
pass removes at most one `sidx` box, so inputs with several top-level
`sidx` boxes can violate idempotence. -/
theorem remove_sidx_idempotent_of_no_sidx_left (data : List Nat)
    (h : dictLookup sidxKey (get_atoms (remove_sidx data)) = none) :
    remove_sidx (remove_sidx data) = remove_sidx data := by
  generalize remove_sidx data = d at h ⊢
  simp [remove_sidx, h]

/-- Witness for the amended C2 theorem at a concrete `sidx`-free input. -/
theorem remove_sidx_idempotent_of_no_sidx_left_witness :
    dictLookup sidxKey (get_atoms (remove_sidx dataFtyp)) = none ∧
    remove_sidx (remove_sidx dataFtyp) = remove_sidx dataFtyp :=
  ⟨by decide, remove_sidx_idempotent_of_no_sidx_left dataFtyp (by decide)⟩

/-! ## String search lemmas -/

/-- Prefix test as an existence of a decomposition. -/
theorem hasPrefixCL_iff (pat hay : List Char) :
    hasPrefixCL hay pat = true ↔ ∃ suf, hay = pat ++ suf := by
  induction pat generalizing hay with
  | nil =>
    have ht : hasPrefixCL hay [] = true := by cases hay <;> rfl
    simp [ht]
  | cons p ps ih =>
    cases hay with
    | nil => simp [hasPrefixCL]
    | cons c cs => simp [hasPrefixCL, ih, exists_and_left]

/-- Python `find` succeeds exactly when the pattern occurs somewhere. -/
theorem pyFind_nonneg_iff (hay pat : List Char) :
    0 ≤ pyFind hay pat ↔ ∃ pre suf, hay = pre ++ pat ++ suf := by
  induction hay with
  | nil =>
    rw [pyFind]
    by_cases hp : hasPrefixCL [] pat = true
    · rw [if_pos hp]
      obtain ⟨suf, hs⟩ := (hasPrefixCL_iff pat []).mp hp
      exact ⟨fun _ => ⟨[], suf, by simpa using hs⟩, fun _ => le_refl 0⟩
    · rw [if_neg hp]
      constructor
      · intro h0; exact absurd h0 (by norm_num)
      · rintro ⟨pre, suf, h⟩
        have hpre : pre = [] := by
          cases pre with
          | nil => rfl
          | cons a b => simp at h
        subst hpre
        have hpat : pat = [] := by
          cases pat with
          | nil => rfl
          | cons a b => simp at h
        subst hpat
        exact absurd ((hasPrefixCL_iff [] []).mpr ⟨[], rfl⟩) hp
  | cons c cs ih =>
    rw [pyFind]
    by_cases hp : hasPrefixCL (c :: cs) pat = true
    · rw [if_pos hp]
      obtain ⟨suf, hs⟩ := (hasPrefixCL_iff pat (c :: cs)).mp hp
      exact ⟨fun _ => ⟨[], suf, by simpa using hs⟩, fun _ => le_refl 0⟩
    · rw [if_neg hp]
      simp only []
      by_cases hr : pyFind cs pat < 0
      · rw [if_pos hr]
        constructor
        · intro h0; exact absurd h0 (by norm_num)
        · rintro ⟨pre, suf, h⟩
          cases pre with
          | nil =>
            exact absurd ((hasPrefixCL_iff pat (c :: cs)).mpr ⟨suf, by simpa using h⟩) hp
          | cons a pre =>
            have h2 : cs = pre ++ pat ++ suf := by
              simp only [List.cons_append, List.cons.injEq] at h
              exact h.2
            have : 0 ≤ pyFind cs pat := ih.mpr ⟨pre, suf, h2⟩
            omega
      · rw [if_neg hr]
        constructor
        · intro _
          obtain ⟨pre, suf, h⟩ := ih.mp (by omega)
          exact ⟨c :: pre, suf, by simp [h]⟩
        · intro _; omega

/-! ## C5: is_fragmented and the query component -/

/-- C5 counterexample: the code searches the whole lowercased URL, not
its query component.  `urlC5` carries "noclen" only in its path, its
query is "x=1", yet `is_fragmented` answers true. -/
theorem is_fragmented_query_counterexample :
    is_fragmented urlC5 = true ∧
    specQuery urlC5 = ['x', '=', '1'] ∧
    ¬ ∃ pre suf, specQuery urlC5 = pre ++ noclenStr ++ suf := by
  refine ⟨by decide, by decide, ?_⟩
  intro hcon
  have h0 : (0 : Int) ≤ pyFind (specQuery urlC5) noclenStr :=
    (pyFind_nonneg_iff _ _).mpr hcon
  have hv : pyFind (specQuery urlC5) noclenStr = -1 := by decide
  rw [hv] at h0
  exact absurd h0 (by norm_num)

/-- C5 (amended): `is_fragmented u` is true exactly when the lowercased
URL contains "noclen" as a substring anywhere, not only in the query. -/
theorem is_fragmented_iff_lower_contains (url : List Char) :
    is_fragmented url = true ↔ ∃ pre suf, pyLower url = pre ++ noclenStr ++ suf := by
  unfold is_fragmented
  rw [decide_eq_true_eq]
  exact pyFind_nonneg_iff (pyLower url) noclenStr

/-! ## C3: the 404 branch of download_frags -/

/-- C3 counterexample: with `max_seq_hint = 0`, a not-live stream and
`seq = 0`, the code exits quietly although the claimed condition
`max_seq_hint > 0` does not hold. -/
theorem download_frags_on_404_counterexample :
    download_frags_on_404 0 false 0 = Frag404Result.exitQuietly ∧ ¬ ((0 : Int) > 0) := by
  decide

/-- C3 (amended): the quiet exit happens iff `max_seq_hint > -1` (a head
sequence number was ever received, possibly 0), the stream is not live
and `seq ≥ max_seq_hint - 2`; every other 404 counts as one retry. -/
theorem download_frags_on_404_iff (max_seq : Int) (is_live : Bool) (seq : Int) :
    download_frags_on_404 max_seq is_live seq = Frag404Result.exitQuietly ↔
      (-1 < max_seq ∧ is_live = false ∧ max_seq - 2 ≤ seq) := by
  unfold download_frags_on_404
  by_cases h1 : max_seq > -1
  · by_cases h2 : is_live = false ∧ seq ≥ max_seq - 2
    · rw [if_pos h1, if_pos h2]
      exact ⟨fun _ => ⟨h1, h2.1, h2.2⟩, fun _ => rfl⟩
    · rw [if_pos h1, if_neg h2]
      constructor
      · intro hq; exact absurd hq (by simp)
      · rintro ⟨_, hl, hs⟩; exact absurd ⟨hl, hs⟩ h2
  · rw [if_neg h1]
    constructor
    · intro hq; exact absurd hq (by simp)
    · rintro ⟨hm, _, _⟩; exact absurd hm h1

/-! ## C4: pool size 0 at setup -/

/-- Spawn loop: starting from `active_threads ≤ thread_count`, the loop
ends with exactly `thread_count` active threads. -/
theorem download_stream_spawn_eq (a c : Nat) (h : a ≤ c) :
    download_stream_spawn a c = c := by
  rw [download_stream_spawn]
  by_cases hlt : a < c
  · rw [if_pos hlt]
    exact download_stream_spawn_eq (a + 1) c hlt
  · rw [if_neg hlt]
    omega
termination_by c - a

/-- C4 counterexample: `--threads 0` parses as `abs(int("0")) = 0` and
does not exit at setup; capture proceeds with thread_count 0. -/
theorem threads_zero_counterexample :
    main_threads_opt (some 0) ≠ SetupResult.exit1 ∧
    main_threads_opt (some 0) = SetupResult.proceed 0 := by decide

/-- C4 (amended): no integer thread count is rejected at setup — the
option handler stores the absolute value — and the spawn loop of
`download_stream` then starts exactly `thread_count` workers, so a run
with `--threads 0` proceeds to capture with zero download workers. -/
theorem threads_option_never_rejects (n : Int) (c : Nat) :
    main_threads_opt (some n) = SetupResult.proceed n.natAbs ∧
    download_stream_spawn 0 c = c :=
  ⟨rfl, download_stream_spawn_eq 0 c (Nat.zero_le c)⟩

/-! ## C6 and C10: early returns of get_video_info -/

/-- C6 counterexample: a call 5 seconds after the last refresh on an
unavailable stream is a no-op but returns `None`, not `False` (the
`is_unavailable` early return at line 575 precedes the rate-limit
check). -/
theorem get_video_info_returns_none_counterexample :
    (5 : Int) - infoUnavail.last_updated < RECHECK_TIME ∧
    (get_video_info probeConst 5 infoUnavail).1 ≠ some false ∧
    (get_video_info probeConst 5 infoUnavail).2 = infoUnavail := by decide

/-- C6 (amended): any call with `now - last_updated < RECHECK_TIME` is a
no-op for every probe behaviour: the state (URL templates and
`last_updated` included) is unchanged and the result is `False` — or
`None` when `is_unavailable` was already set, that check coming first. -/
theorem get_video_info_rate_limited_noop (probe : DownloadInfo → Option Bool × DownloadInfo)
    (now : Int) (info : DownloadInfo) (h : now - info.last_updated < RECHECK_TIME) :
    (get_video_info probe now info).2 = info ∧
    (get_video_info probe now info).1 =
      (if info.gvideo_ddl = false ∧ info.stopping = false ∧ info.is_unavailable = true
       then none else some false) := by
  cases hg : info.gvideo_ddl <;> cases hs : info.stopping <;>
    cases hu : info.is_unavailable <;> simp [get_video_info, hg, hs, hu, h]

/-- Witness for the amended C6 theorem at a concrete rate-limited call. -/
theorem get_video_info_rate_limited_noop_witness :
    ((5 : Int) - infoUnavail.last_updated < RECHECK_TIME) ∧
    ((get_video_info probeConst 5 infoUnavail).2 = infoUnavail ∧
     (get_video_info probeConst 5 infoUnavail).1 =
       (if infoUnavail.gvideo_ddl = false ∧ infoUnavail.stopping = false ∧
           infoUnavail.is_unavailable = true
        then none else some false)) :=
  ⟨by decide, get_video_info_rate_limited_noop probeConst 5 infoUnavail (by decide)⟩

/-- C10: with the stopping flag set, `get_video_info` returns `False`
and leaves the whole state unchanged, for every probe behaviour (the
probe is never consulted). -/
theorem get_video_info_stopping_frame (probe : DownloadInfo → Option Bool × DownloadInfo)
    (now : Int) (info : DownloadInfo) (h : info.stopping = true) :
    get_video_info probe now info = (some false, info) := by
  cases hg : info.gvideo_ddl <;> simp [get_video_info, hg, h]

/-- Witness for the C10 theorem at a concrete stopping state. -/
theorem get_video_info_stopping_frame_witness :
    infoStopping.stopping = true ∧
    get_video_info probeConst 7 infoStopping = (some false, infoStopping) :=
  ⟨by decide, get_video_info_stopping_frame probeConst 7 infoStopping (by decide)⟩

/-! ## C1: the assembler write loop -/

/-- One run of the write loop appends exactly the seqs `cur_frag`,
`cur_frag + 1`, … up to the final cursor, in that order, and every write
comes from a pending fragment whose seq equalled the cursor. -/
theorem download_stream_write_spec (data : List Fragment) (i cur : Nat)
    (file : List (Nat × List Nat)) :
    ((download_stream_write data i cur file).2.2).map Prod.fst =
      file.map Prod.fst ++
        List.range' cur ((download_stream_write data i cur file).2.1 - cur) ∧
    cur ≤ (download_stream_write data i cur file).2.1 ∧
    ∀ e ∈ (download_stream_write data i cur file).2.2,
      e ∈ file ∨ ∃ d, d ∈ data ∧ d.seq = e.1 ∧ e.2 = write_frag_bytes d := by
  induction data, i, cur, file using download_stream_write.induct with
  | case1 data i cur file h d hne ih =>
    rw [download_stream_write, dif_pos h, if_pos hne]
    exact ih
  | case2 data i cur file h d hne ih =>
    have hd : d = data[i] := rfl
    rw [hd] at hne
    obtain ⟨ih1, ih2, ih3⟩ := ih
    rw [hd] at ih1 ih2 ih3
    have hseq : data[i].seq = cur := by
      by_contra hc
      exact hne hc
    rw [download_stream_write, dif_pos h, if_neg (hd ▸ hne)]
    refine ⟨?_, by omega, ?_⟩
    · rw [ih1]
      have hnum : (download_stream_write (data.eraseIdx i) 0 (cur + 1)
          (file ++ [(data[i].seq, write_frag_bytes data[i])])).2.1 - cur =
          ((download_stream_write (data.eraseIdx i) 0 (cur + 1)
            (file ++ [(data[i].seq, write_frag_bytes data[i])])).2.1 - (cur + 1)) + 1 := by
        omega
      rw [hnum, List.range'_succ, List.map_append, List.append_assoc]
      simp [hseq]
    · intro e he
      rcases ih3 e he with hf | ⟨d2, hd2, hds, hdb⟩
      · rcases List.mem_append.mp hf with hf1 | hf2
        · exact Or.inl hf1
        · refine Or.inr ⟨data[i], List.getElem_mem h, ?_, ?_⟩
          · rw [List.mem_singleton.mp hf2]
          · rw [List.mem_singleton.mp hf2]
      · exact Or.inr ⟨d2, (List.eraseIdx_sublist data i).subset hd2, hds, hdb⟩
  | case3 data i cur file h =>
    rw [download_stream_write, dif_neg h]
    exact ⟨by simp, le_refl cur, fun e he => Or.inl he⟩

/-- C1: starting the write pass with the file holding exactly fragments
`0 … cur_frag - 1` in order, it ends holding exactly fragments
`0 … cur_frag' - 1` in order — every fragment below the new cursor is
written exactly once, in ascending order with no gaps and no
duplicates, a fragment is only ever written while its seq equals the
cursor, and every written entry carries the (sidx-stripped) bytes of a
pending fragment with that seq. -/
theorem download_stream_write_in_order (data : List Fragment) (cur : Nat)
    (file : List (Nat × List Nat)) (hfile : file.map Prod.fst = List.range cur) :
    ((download_stream_write data 0 cur file).2.2).map Prod.fst =
      List.range ((download_stream_write data 0 cur file).2.1) ∧
    cur ≤ (download_stream_write data 0 cur file).2.1 ∧
    ∀ e ∈ (download_stream_write data 0 cur file).2.2,
      e ∈ file ∨ ∃ d, d ∈ data ∧ d.seq = e.1 ∧ e.2 = write_frag_bytes d := by
  obtain ⟨h1, h2, h3⟩ := download_stream_write_spec data 0 cur file
  refine ⟨?_, h2, h3⟩
  rw [h1, hfile, List.range_eq_range', List.range_eq_range']
  have := List.range'_append_1 0 cur ((download_stream_write data 0 cur file).2.1 - cur)
  rw [Nat.zero_add] at this
  rw [this]
  congr 1
  omega

/-- Witness for the C1 theorem: fragments 1, 0, 3 pending and the cursor
at 0; fragments 0 and 1 get written in order, fragment 3 stays pending. -/
theorem download_stream_write_in_order_witness :
    (([] : List (Nat × List Nat)).map Prod.fst = List.range 0) ∧
    (((download_stream_write dataFragsW 0 0 []).2.2).map Prod.fst =
      List.range ((download_stream_write dataFragsW 0 0 []).2.1) ∧
    0 ≤ (download_stream_write dataFragsW 0 0 []).2.1 ∧
    ∀ e ∈ (download_stream_write dataFragsW 0 0 []).2.2,
      e ∈ ([] : List (Nat × List Nat)) ∨
        ∃ d, d ∈ dataFragsW ∧ d.seq = e.1 ∧ e.2 = write_frag_bytes d) :=
  ⟨by decide, download_stream_write_in_order dataFragsW 0 [] (by decide)⟩

/-! ## C9: which sidx box one remove_sidx pass removes -/

/-- Every parse-trace entry sits at or after the starting offset. -/
theorem getAtomsTraceGo_ofs_le (data : List Nat) :
    ∀ fuel ofs, ∀ e ∈ getAtomsTraceGo data fuel ofs, ofs ≤ e.2.1 := by
  intro fuel
  induction fuel with
  | zero => intro ofs e he; simp [getAtomsTraceGo] at he
  | succ fuel ih =>
    intro ofs e he
    cases hA : readAlen data ofs with
    | none => simp [getAtomsTraceGo, hA] at he
    | some alen =>
      simp only [getAtomsTraceGo, hA] at he
      split at he
      · simp at he
      · split at he
        · split at he
          · have he2 := List.mem_singleton.mp he
            rw [he2]
          · rcases List.mem_cons.mp he with he1 | he2
            · rw [he1]
            · have := ih (ofs + alen) e he2
              omega
        · simp at he

/-- Successive parse-trace entries do not overlap: each entry ends at or
before the next entry begins. -/
theorem getAtomsTraceGo_pairwise (data : List Nat) :
    ∀ fuel ofs, List.Pairwise (fun a b : AtomEntry => a.2.1 + a.2.2 ≤ b.2.1)
      (getAtomsTraceGo data fuel ofs) := by
  intro fuel
  induction fuel with
  | zero => intro ofs; simp [getAtomsTraceGo]
  | succ fuel ih =>
    intro ofs
    cases hA : readAlen data ofs with
    | none => simp [getAtomsTraceGo, hA]
    | some alen =>
      simp only [getAtomsTraceGo, hA]
      split
      · simp
      · split
        · split
          · simp
          · refine List.Pairwise.cons ?_ (ih (ofs + alen))
            intro e he
            have := getAtomsTraceGo_ofs_le data fuel (ofs + alen) e he
            simp only []
            omega
        · simp

/-- C9 counterexample: a byte string made of two top-level `sidx` boxes
(9 bytes then 8 bytes).  The trailing box is never parsed, because the
scan stops once fewer than 9 bytes remain past the current offset, so
`remove_sidx` removes the FIRST box and keeps the LAST one — not, as
claimed, the other way round. -/
theorem remove_sidx_last_sidx_counterexample :
    remove_sidx (serializeBoxes [sidxBoxA, sidxBoxB]) = serializeBox sidxBoxB ∧
    remove_sidx (serializeBoxes [sidxBoxA, sidxBoxB]) ≠ serializeBox sidxBoxA := by
  decide

/-- C9 (amended): when the `get_atoms` scan parses two or more `sidx`
entries, one `remove_sidx` pass splices out exactly the LAST PARSED
`sidx` entry (the dictionary keyed by box name keeps the last
assignment), and every earlier parsed `sidx` entry lies wholly inside the
preserved prefix; a trailing box that the scan never reaches (fewer than
9 bytes past the current offset) is not considered at all. -/
theorem remove_sidx_removes_last_parsed_sidx (data : List Nat) (ol : Nat × Nat)
    (_hcount : 2 ≤ (sidxEntries data).length)
    (hlast : (sidxEntries data).getLast? = some ol) :
    remove_sidx data = data.take ol.1 ++ data.drop (ol.1 + ol.2) ∧
    ∀ e ∈ (sidxEntries data).dropLast, e.1 + e.2 ≤ ol.1 := by
  have hmap : (sidxEntries data).getLast? =
      (((getAtomsTrace data).filter (fun e => decide (e.1 = sidxKey))).getLast?).map Prod.snd := by
    unfold sidxEntries
    exact List.getLast?_map Prod.snd _
  constructor
  · cases hsl : ((getAtomsTrace data).filter (fun e => decide (e.1 = sidxKey))).getLast? with
    | none => rw [hmap, hsl] at hlast; simp at hlast
    | some el =>
      rw [hmap, hsl] at hlast
      have hol : el.2 = ol := by simpa using hlast
      have hlook : dictLookup sidxKey (get_atoms data) = some el.2 := by
        rw [dictLookup_get_atoms, hsl]
      rw [hol] at hlook
      simp [remove_sidx, hlook]
  · have hpw : List.Pairwise (fun a b : AtomEntry => a.2.1 + a.2.2 ≤ b.2.1)
        ((getAtomsTrace data).filter (fun e => decide (e.1 = sidxKey))) :=
      List.Pairwise.sublist (List.filter_sublist _)
        (getAtomsTraceGo_pairwise data (data.length + 1) 0)
    have hpw2 : List.Pairwise (fun p q : Nat × Nat => p.1 + p.2 ≤ q.1) (sidxEntries data) := by
      unfold sidxEntries
      exact List.pairwise_map.mpr hpw
    obtain ⟨ys, hys⟩ := List.getLast?_eq_some_iff.mp hlast
    rw [hys] at hpw2 ⊢
    rw [List.dropLast_concat]
    have := (List.pairwise_append.mp hpw2).2.2
    intro e he
    exact this e he ol (List.mem_singleton.mpr rfl)

/-- Witness for the amended C9 theorem: two parsed `sidx` boxes followed
by a `free` box; the second `sidx` entry `(8, 8)` is spliced out and the
first one `(0, 8)` ends at offset 8, inside the preserved prefix. -/
theorem remove_sidx_removes_last_parsed_sidx_witness :
    (2 ≤ (sidxEntries (serializeBoxes [sidxBoxB, sidxBoxB, freeBox])).length) ∧
    ((sidxEntries (serializeBoxes [sidxBoxB, sidxBoxB, freeBox])).getLast? = some (8, 8)) ∧
    (remove_sidx (serializeBoxes [sidxBoxB, sidxBoxB, freeBox]) =
      (serializeBoxes [sidxBoxB, sidxBoxB, freeBox]).take 8 ++
        (serializeBoxes [sidxBoxB, sidxBoxB, freeBox]).drop (8 + 8) ∧
     ∀ e ∈ (sidxEntries (serializeBoxes [sidxBoxB, sidxBoxB, freeBox])).dropLast,
       e.1 + e.2 ≤ 8) :=
  ⟨by decide, by decide,
    remove_sidx_removes_last_parsed_sidx (serializeBoxes [sidxBoxB, sidxBoxB, freeBox])
      (8, 8) (by decide) (by decide)⟩

/-! ## C8: remove_sidx passes sidx-free box sequences through -/

/-- ASCII byte sequences pass the fuel-indexed UTF-8 scan. -/
theorem validUtf8Go_ascii (fuel : Nat) :
    ∀ l : List Nat, l.length ≤ fuel → (∀ c ∈ l, c < 128) →
      validUtf8Go fuel l = true := by
  induction fuel with
  | zero =>
    intro l hl _
    cases l with
    | nil => rfl
    | cons b rest => simp at hl
  | succ fuel ih =>
    intro l hl h
    cases l with
    | nil => rfl
    | cons b rest =>
      have hb : b < 128 := h b (List.mem_cons_self b rest)
      have hneed : utf8Need b = some (0, 0, 0) := by
        unfold utf8Need
        rw [if_pos hb]
      have hlen : rest.length ≤ fuel := by
        simp only [List.length_cons] at hl
        omega
      have hrest := ih rest hlen (fun c hc => h c (List.mem_cons_of_mem b hc))
      simp [validUtf8Go, hneed, hrest]

/-- ASCII byte sequences are valid UTF-8. -/
theorem validUtf8_ascii (l : List Nat) (h : ∀ c ∈ l, c < 128) : validUtf8 l = true :=
  validUtf8Go_ascii l.length l (le_refl _) h

/-- Reading back a 4-byte big-endian encoding of a u32 recovers it. -/
theorem beNat_natToBeBytes4 (n : Nat) (h : n < 4294967296) :
    beNat (natToBeBytes4 n) = n := by
  simp only [beNat, natToBeBytes4, List.foldl_cons, List.foldl_nil]
  omega

/-- Serialized length of a box whose name has 4 bytes. -/
theorem length_serializeBox (b : IsoBox) (h : b.name.length = 4) :
    (serializeBox b).length = 8 + b.payload.length := by
  simp [serializeBox, natToBeBytes4, h]
  omega

/-- Scanning a serialized well-formed box sequence only ever records the
names of boxes of that sequence: the scan is aligned to box boundaries. -/
theorem trace_names_serialized (data : List Nat) :
    ∀ (bs : List IsoBox) (fuel ofs : Nat),
      data.drop ofs = serializeBoxes bs →
      (∀ b ∈ bs, wfBox b) →
      ∀ e ∈ getAtomsTraceGo data fuel ofs, ∃ b ∈ bs, e.1 = b.name := by
  intro bs
  induction bs with
  | nil =>
    intro fuel ofs hdrop _ e he
    cases fuel with
    | zero => simp [getAtomsTraceGo] at he
    | succ fuel =>
      have hre : readAlen data ofs = none := by
        unfold readAlen
        rw [hdrop]
        simp [serializeBoxes]
      simp only [getAtomsTraceGo, hre] at he
      exact absurd he (List.not_mem_nil e)
  | cons b bs ih =>
    intro fuel ofs hdrop hwf e he
    cases fuel with
    | zero => simp [getAtomsTraceGo] at he
    | succ fuel =>
      obtain ⟨hn4, hascii, hfit⟩ := hwf b (List.mem_cons_self b bs)
      have hsb : serializeBoxes (b :: bs) = serializeBox b ++ serializeBoxes bs := rfl
      have hsblen : (serializeBox b).length = 8 + b.payload.length := length_serializeBox b hn4
      have hdropofs : data.drop ofs =
          natToBeBytes4 (8 + b.payload.length) ++ (b.name ++ (b.payload ++ serializeBoxes bs)) := by
        rw [hdrop, hsb]
        simp [serializeBox]
      have htake4 : (data.drop ofs).take 4 = natToBeBytes4 (8 + b.payload.length) := by
        rw [hdropofs]
        have h4 : (natToBeBytes4 (8 + b.payload.length)).length = 4 := rfl
        rw [← h4, List.take_left]
      have hre : readAlen data ofs = some (8 + b.payload.length) := by
        unfold readAlen
        simp only [htake4]
        rw [if_neg (by simp [natToBeBytes4])]
        rw [beNat_natToBeBytes4 _ hfit]
      have hdlen : data.length - ofs = (serializeBox b).length + (serializeBoxes bs).length := by
        have hc := congrArg List.length hdrop
        rw [List.length_drop] at hc
        rw [hc, hsb, List.length_append]
      have hnotbig : ¬ (8 + b.payload.length > data.length) := by omega
      have hdrop4 : data.drop (ofs + 4) = b.name ++ (b.payload ++ serializeBoxes bs) := by
        have hx : data.drop (ofs + 4) = (data.drop ofs).drop 4 := by
          rw [List.drop_drop, Nat.add_comm]
        rw [hx, hdropofs]
        have h4 : (natToBeBytes4 (8 + b.payload.length)).length = 4 := rfl
        rw [← h4, List.drop_left]
      have hname : (data.drop (ofs + 4)).take 4 = b.name := by
        rw [hdrop4, ← hn4, List.take_left]
      have hvalid : validUtf8 ((data.drop (ofs + 4)).take 4) = true := by
        rw [hname]
        exact validUtf8_ascii b.name hascii
      have hdropnext : data.drop (ofs + (8 + b.payload.length)) = serializeBoxes bs := by
        have hx : data.drop (ofs + (8 + b.payload.length)) =
            (data.drop ofs).drop (8 + b.payload.length) := by
          rw [List.drop_drop, Nat.add_comm]
        rw [hx, hdrop, hsb, ← hsblen, List.drop_left]
      simp only [getAtomsTraceGo, hre] at he
      rw [if_neg hnotbig, if_pos hvalid] at he
      split at he
      · have he2 := List.mem_singleton.mp he
        refine ⟨b, List.mem_cons_self b bs, ?_⟩
        rw [he2]
        simpa using hname
      · rcases List.mem_cons.mp he with he1 | he2
        · refine ⟨b, List.mem_cons_self b bs, ?_⟩
          rw [he1]
          simpa using hname
        · obtain ⟨b2, hb2, hb2n⟩ := ih fuel (ofs + (8 + b.payload.length)) hdropnext
            (fun b2 hb2 => hwf b2 (List.mem_cons_of_mem b hb2)) e he2
          exact ⟨b2, List.mem_cons_of_mem b hb2, hb2n⟩

/-- C8: `remove_sidx` passes any serialized well-formed top-level box
sequence with no box named `sidx` through unchanged. -/
theorem remove_sidx_id_of_no_sidx_box (bs : List IsoBox)
    (hwf : ∀ b ∈ bs, wfBox b) (hns : ∀ b ∈ bs, b.name ≠ sidxKey) :
    remove_sidx (serializeBoxes bs) = serializeBoxes bs := by
  have htr : ∀ e ∈ getAtomsTrace (serializeBoxes bs), e.1 ≠ sidxKey := by
    intro e he
    unfold getAtomsTrace at he
    obtain ⟨b, hb, hbn⟩ := trace_names_serialized (serializeBoxes bs) bs
      ((serializeBoxes bs).length + 1) 0 (by simp) hwf e he
    rw [hbn]
    exact hns b hb
  have hlook := dictLookup_get_atoms_none (serializeBoxes bs) sidxKey htr
  simp [remove_sidx, hlook]

/-- Witness for the C8 theorem at a concrete `sidx`-free box sequence. -/
theorem remove_sidx_id_of_no_sidx_box_witness :
    (∀ b ∈ [ftypBoxW, freeBox], wfBox b) ∧
    (∀ b ∈ [ftypBoxW, freeBox], b.name ≠ sidxKey) ∧
    remove_sidx (serializeBoxes [ftypBoxW, freeBox]) = serializeBoxes [ftypBoxW, freeBox] :=
  ⟨by decide, by decide,
    remove_sidx_id_of_no_sidx_box [ftypBoxW, freeBox] (by decide) (by decide)⟩

/-! ## C7: parse_quality_list over a slash-joined list -/

/-- A list equal to its own `dropWhile` does not start with a matching
element. -/
theorem head_no_match_of_dropWhile_eq_self (p : Char → Bool) (s : List Char)
    (h : s.dropWhile p = s) : ∀ c, s.head? = some c → p c = false := by
  intro c hc
  cases s with
  | nil => simp at hc
  | cons b rest =>
    have hb : b = c := by simpa using hc
    subst hb
    by_contra hsp
    have hsp2 : p b = true := by
      cases hv : p b with
      | false => exact absurd hv hsp
      | true => rfl
    rw [List.dropWhile_cons, if_pos hsp2] at h
    have hlen := congrArg List.length h
    have hle := (List.dropWhile_suffix (l := rest) p).length_le
    simp only [List.length_cons] at hlen
    omega

/-- When `pyStrip` fixes a string, so does the leading `dropWhile`. -/
theorem dropWhile_eq_self_of_pyStrip (q : List Char) (h : pyStrip q = q) :
    q.dropWhile pyIsSpace = q := by
  have hsuf := List.dropWhile_suffix (l := q) pyIsSpace
  apply hsuf.eq_of_length_le
  have h1 := congrArg List.length h
  unfold pyStrip at h1
  rw [List.length_reverse] at h1
  have h2 := (List.dropWhile_suffix
    (l := (q.dropWhile pyIsSpace).reverse) pyIsSpace).length_le
  rw [List.length_reverse] at h2
  omega

/-- When `pyStrip` fixes a string, so does the trailing `dropWhile` on
its reverse. -/
theorem dropWhile_reverse_eq_of_pyStrip (q : List Char) (h : pyStrip q = q) :
    q.reverse.dropWhile pyIsSpace = q.reverse := by
  have hld := dropWhile_eq_self_of_pyStrip q h
  unfold pyStrip at h
  rw [hld] at h
  rw [← List.reverse_inj]
  rw [List.reverse_reverse]
  exact h

/-- A `pyStrip`-fixed string does not start with whitespace. -/
theorem head_not_space_of_pyStrip (q : List Char) (h : pyStrip q = q) :
    ∀ c, q.head? = some c → pyIsSpace c = false :=
  head_no_match_of_dropWhile_eq_self pyIsSpace q (dropWhile_eq_self_of_pyStrip q h)

/-- A `pyStrip`-fixed string does not end with whitespace. -/
theorem last_not_space_of_pyStrip (q : List Char) (h : pyStrip q = q) :
    ∀ c, q.getLast? = some c → pyIsSpace c = false := by
  intro c hc
  refine head_no_match_of_dropWhile_eq_self pyIsSpace q.reverse
    (dropWhile_reverse_eq_of_pyStrip q h) c ?_
  rw [List.head?_reverse]
  exact hc

/-- A string with no whitespace at either edge is `pyStrip`-fixed. -/
theorem pyStrip_eq_self_of_edges (s : List Char)
    (h1 : ∀ c, s.head? = some c → pyIsSpace c = false)
    (h2 : ∀ c, s.getLast? = some c → pyIsSpace c = false) :
    pyStrip s = s := by
  unfold pyStrip
  have hd : s.dropWhile pyIsSpace = s := by
    cases s with
    | nil => rfl
    | cons b rest =>
      rw [List.dropWhile_cons, if_neg]
      rw [h1 b rfl]
      exact Bool.false_ne_true
  rw [hd]
  have hr : s.reverse.dropWhile pyIsSpace = s.reverse := by
    cases hs : s.reverse with
    | nil => rfl
    | cons b rest =>
      rw [List.dropWhile_cons, if_neg]
      have hb : s.getLast? = some b := by
        rw [← List.head?_reverse, hs]
        rfl
      rw [h2 b hb]
      exact Bool.false_ne_true
  rw [hr, List.reverse_reverse]

/-- Lowercasing fixes a slash-join of lowercase-fixed strings. -/
theorem pyLower_joinSlash (qs : List (List Char)) (h : ∀ q ∈ qs, pyLower q = q) :
    pyLower (joinSlash qs) = joinSlash qs := by
  induction qs with
  | nil => rfl
  | cons q qs ih =>
    cases qs with
    | nil => exact h q (List.mem_cons_self q [])
    | cons q2 qs2 =>
      show pyLower (q ++ '/' :: joinSlash (q2 :: qs2)) = q ++ '/' :: joinSlash (q2 :: qs2)
      have h1 : pyLower q = q := h q (List.mem_cons_self q (q2 :: qs2))
      have h2 : pyLower (joinSlash (q2 :: qs2)) = joinSlash (q2 :: qs2) :=
        ih (fun r hr => h r (List.mem_cons_of_mem q hr))
      have h3 : pyLowerChar '/' = '/' := by decide
      unfold pyLower at h1 h2 ⊢
      rw [List.map_append, List.map_cons, h1, h2, h3]

/-- The head of a slash-join of strip-fixed strings is not whitespace. -/
theorem joinSlash_head_not_space (qs : List (List Char))
    (h : ∀ q ∈ qs, pyStrip q = q) :
    ∀ c, (joinSlash qs).head? = some c → pyIsSpace c = false := by
  induction qs with
  | nil => intro c hc; simp [joinSlash] at hc
  | cons q qs ih =>
    cases qs with
    | nil => exact head_not_space_of_pyStrip q (h q (List.mem_cons_self q []))
    | cons q2 qs2 =>
      intro c hc
      have hshow : (joinSlash (q :: q2 :: qs2)).head? =
          (q ++ '/' :: joinSlash (q2 :: qs2)).head? := rfl
      rw [hshow] at hc
      cases q with
      | nil =>
        have hcs : '/' = c := by simpa using hc
        rw [← hcs]
        decide
      | cons b bs =>
        have hb : b = c := by simpa using hc
        rw [← hb]
        exact head_not_space_of_pyStrip (b :: bs)
          (h (b :: bs) (List.mem_cons_self _ _)) b rfl

/-- The last character of a slash-join of strip-fixed strings is not
whitespace. -/
theorem joinSlash_last_not_space (qs : List (List Char))
    (h : ∀ q ∈ qs, pyStrip q = q) :
    ∀ c, (joinSlash qs).getLast? = some c → pyIsSpace c = false := by
  induction qs with
  | nil => intro c hc; simp [joinSlash] at hc
  | cons q qs ih =>
    cases qs with
    | nil => exact last_not_space_of_pyStrip q (h q (List.mem_cons_self q []))
    | cons q2 qs2 =>
      intro c hc
      have hshow : (joinSlash (q :: q2 :: qs2)).getLast? =
          (q ++ '/' :: joinSlash (q2 :: qs2)).getLast? := rfl
      rw [hshow, List.getLast?_append] at hc
      have hcj : ('/' :: joinSlash (q2 :: qs2)).getLast? = some c := by
        cases hg : ('/' :: joinSlash (q2 :: qs2)).getLast? with
        | none => simp at hg
        | some x =>
          rw [hg] at hc
          simp only [Option.or_some] at hc
          exact hc
      cases hj : joinSlash (q2 :: qs2) with
      | nil =>
        rw [hj] at hcj
        have : c = '/' := by simpa using hcj.symm
        rw [this]
        decide
      | cons jb jrest =>
        rw [hj, List.getLast?_cons_cons] at hcj
        refine ih (fun r hr => h r (List.mem_cons_of_mem q hr)) c ?_
        rw [hj]
        exact hcj

/-- `pySplitSlash` never returns the empty list of pieces. -/
theorem pySplitSlash_ne_nil (l : List Char) : pySplitSlash l ≠ [] := by
  cases l with
  | nil => simp [pySplitSlash]
  | cons c cs =>
    rw [pySplitSlash]
    cases hs : pySplitSlash cs with
    | nil => simp
    | cons g gs =>
      by_cases hc : c = '/'
      · simp [hc]
      · simp [hc]

/-- Splitting a slash-free string yields that one piece. -/
theorem pySplitSlash_no_slash (a : List Char) (h : '/' ∉ a) :
    pySplitSlash a = [a] := by
  induction a with
  | nil => rfl
  | cons c cs ih =>
    have hc : ¬ c = '/' := by
      intro he
      exact h (by rw [he]; exact List.mem_cons_self '/' cs)
    have ih2 : pySplitSlash cs = [cs] := ih (fun hm => h (List.mem_cons_of_mem c hm))
    rw [pySplitSlash, ih2]
    simp [hc]

/-- Splitting `a ++ "/" ++ b` with slash-free `a` peels off `a`. -/
theorem pySplitSlash_append (a b : List Char) (h : '/' ∉ a) :
    pySplitSlash (a ++ '/' :: b) = a :: pySplitSlash b := by
  induction a with
  | nil =>
    rw [List.nil_append, pySplitSlash]
    cases hs : pySplitSlash b with
    | nil => exact absurd hs (pySplitSlash_ne_nil b)
    | cons g gs => simp
  | cons c cs ih =>
    have hc : ¬ c = '/' := by
      intro he
      exact h (by rw [he]; exact List.mem_cons_self '/' cs)
    have ih2 := ih (fun hm => h (List.mem_cons_of_mem c hm))
    rw [List.cons_append, pySplitSlash, ih2]
    simp [hc]

/-- Splitting a slash-join of slash-free strings recovers the list. -/
theorem pySplitSlash_joinSlash (qs : List (List Char)) (hne : qs ≠ [])
    (h : ∀ q ∈ qs, '/' ∉ q) : pySplitSlash (joinSlash qs) = qs := by
  induction qs with
  | nil => contradiction
  | cons q qs ih =>
    cases qs with
    | nil => exact pySplitSlash_no_slash q (h q (List.mem_cons_self q []))
    | cons q2 qs2 =>
      show pySplitSlash (q ++ '/' :: joinSlash (q2 :: qs2)) = q :: q2 :: qs2
      rw [pySplitSlash_append _ _ (h q (List.mem_cons_self q (q2 :: qs2)))]
      rw [ih (by simp) (fun r hr => h r (List.mem_cons_of_mem q hr))]

/-- The selection fold of `parse_quality_list` is a filter when every
piece is strip-fixed. -/
theorem parse_quality_list_foldl (formats : List (List Char)) (qs : List (List Char))
    (h : ∀ q ∈ qs, pyStrip q = q) :
    ∀ acc, qs.foldl
      (fun selected_qualities q =>
        let stripped := pyStrip q
        if stripped ∈ formats ∨ stripped = bestStr then selected_qualities ++ [q]
        else selected_qualities) acc
      = acc ++ qs.filter (fun q => decide (q ∈ formats ∨ q = bestStr)) := by
  induction qs with
  | nil => intro acc; simp
  | cons q qs ih =>
    intro acc
    rw [List.foldl_cons]
    have hq : pyStrip q = q := h q (List.mem_cons_self q qs)
    have ih2 := ih (fun r hr => h r (List.mem_cons_of_mem q hr))
    by_cases hp : q ∈ formats ∨ q = bestStr
    · rw [List.filter_cons_of_pos (by simpa using hp)]
      simp only [hq, if_pos hp]
      rw [ih2 (acc ++ [q])]
      simp
    · rw [List.filter_cons_of_neg (by simpa using hp)]
      simp only [hq, if_neg hp]
      exact ih2 acc

/-- C7 counterexample: the code lowercases the whole input before
matching and appends the lowercased piece, so `["BEST"]` yields
`["best"]` — not the claimed subsequence of the original list, which
would be empty since `"BEST"` is neither a table label nor `"best"`. -/
theorem parse_quality_list_case_counterexample :
    parse_quality_list knownLabels (joinSlash [['B', 'E', 'S', 'T']]) ≠
      List.filter (fun q => decide (q ∈ knownLabels ∨ q = bestStr))
        [['B', 'E', 'S', 'T']] := by decide

/-- C7 (amended): for every list of strings that are already lowercase,
strip-fixed and slash-free, `parse_quality_list` on their slash-join
returns exactly the subsequence of elements that appear in the known
label table or equal "best", in order.  (Elements with uppercase
letters, surrounding whitespace or embedded slashes are returned in
normalized or re-split form instead.) -/
theorem parse_quality_list_joinSlash (qs : List (List Char))
    (h : ∀ q ∈ qs, pyLower q = q ∧ pyStrip q = q ∧ '/' ∉ q) :
    parse_quality_list knownLabels (joinSlash qs) =
      qs.filter (fun q => decide (q ∈ knownLabels ∨ q = bestStr)) := by
  cases hqs : qs with
  | nil => decide
  | cons q0 qs0 =>
    rw [← hqs]
    have hlow : pyLower (joinSlash qs) = joinSlash qs :=
      pyLower_joinSlash qs (fun q hq => (h q hq).1)
    have hstrip : pyStrip (joinSlash qs) = joinSlash qs :=
      pyStrip_eq_self_of_edges (joinSlash qs)
        (joinSlash_head_not_space qs (fun q hq => (h q hq).2.1))
        (joinSlash_last_not_space qs (fun q hq => (h q hq).2.1))
    have hsplit : pySplitSlash (joinSlash qs) = qs :=
      pySplitSlash_joinSlash qs (by rw [hqs]; exact List.cons_ne_nil q0 qs0)
        (fun q hq => (h q hq).2.2)
    simp only [parse_quality_list]
    rw [hlow, hstrip, hsplit]
    rw [parse_quality_list_foldl knownLabels qs (fun q hq => (h q hq).2.1) []]
    rw [List.nil_append]

/-- Witness for the amended C7 theorem: `["720p", "zz", "best"]` filters
to `["720p", "best"]`. -/
theorem parse_quality_list_joinSlash_witness :
    (∀ q ∈ qsW, pyLower q = q ∧ pyStrip q = q ∧ '/' ∉ q) ∧
    parse_quality_list knownLabels (joinSlash qsW) =
      qsW.filter (fun q => decide (q ∈ knownLabels ∨ q = bestStr)) :=
  ⟨by decide, parse_quality_list_joinSlash qsW (by decide)⟩

end Ytarchive
